import Mathlib

/-!
# Verification of the `descend` push-based pipeline engine

A shallow embedding, in Lean 4, of the parts of the `descend` C++ library
(headers under `include/descend/`) that the specification's claims are
about.  The push execution model is made explicit: a stage instance is a
state plus a `process_incremental` transition; emissions to the next stage
are accumulated in the state of the (collecting) next stage; `done()` is a
boolean predicate on the state; `end()` produces the terminal value.

Each definition carries a comment naming the C++ entity it embeds.
-/

namespace Descend

/-! ## Execution drivers (`iterate.hpp`) -/

section Driver

variable {α σ : Type}

/-- Inner loop of `detail::iterate_like` (the generic range overload in
`iterate.hpp`): invoke the callback on each element in order, stopping as
soon as `done` reports true after an element.  This function is entered
only after an initial `done` check, which `iterateLike` below performs. -/
def iterateLikeGo (done : σ → Bool) (cb : σ → α → σ) : σ → List α → σ
  | s, [] => s
  | s, x :: xs =>
    let s' := cb s x
    if done s' then s' else iterateLikeGo done cb s' xs

/-- `detail::iterate_like` over a finite range: `if (!done()) { for each
element: callback(elem); if (done()) break; }`. -/
def iterateLike (done : σ → Bool) (cb : σ → α → σ) (s : σ) (xs : List α) : σ :=
  if done s then s else iterateLikeGo done cb s xs

/-- `detail::iterate_generator` driving an infinite generator (such as
`descend::iota`, whose callback always reports that more elements follow).
The generator is modelled as the stream `f 0, f 1, f 2, …`.  The C++ loop
`while (!done()) { gen.f(callback); }` has no intrinsic bound, so it is
modelled with explicit fuel: one unit of fuel pays for one `done()` check.
Termination of the C++ loop is expressed by theorems showing the result
becomes independent of the fuel once enough fuel is supplied. -/
def iterateGenFuel (done : σ → Bool) (cb : σ → α → σ) (f : Nat → α) :
    Nat → Nat → σ → σ
  | 0, _, s => s
  | fuel + 1, i, s =>
    if done s then s else iterateGenFuel done cb f fuel (i + 1) (cb s (f i))

end Driver

/-! ## `take_n_stage` (`stages.hpp`) -/

section TakeN

variable {α : Type}

/-- State of `take_n_stage::impl` wired to a collecting next stage: the
remaining count `n` together with the elements forwarded to the next stage
so far.  `process_incremental`: `if (n != 0) { next.process_incremental(input); --n; }`. -/
def takeNStep (st : Nat × List α) (x : α) : Nat × List α :=
  if st.1 ≠ 0 then (st.1 - 1, st.2 ++ [x]) else st

/-- `take_n_stage::impl::done`: `n == 0`. -/
def takeNDone (st : Nat × List α) : Bool :=
  st.1 == 0

/-- A pipeline `take_n(k)` over a finite source, driven by the
complete→incremental bridge (`stage_chain_component::process_complete`),
which wires `detail::iterate` with the chain's `done()` query. -/
def takeNRun (k : Nat) (xs : List α) : Nat × List α :=
  iterateLike takeNDone takeNStep (k, []) xs

/-- The same pipeline over the infinite generator `f 0, f 1, …`, driven by
`iterate_generator` with the given fuel. -/
def takeNRunGen (k : Nat) (f : Nat → α) (fuel : Nat) : Nat × List α :=
  iterateGenFuel takeNDone takeNStep f fuel 0 (k, [])

end TakeN

/-! ## `max_stage` (`stages.hpp`) -/

section MaxStage

variable {α : Type} [LinearOrder α]

/-- `max_stage::impl::process_incremental`: the running aggregate is
`std::optional<α>`; `if (!max || *max < input) max = input;`. -/
def maxStep (m : Option α) (x : α) : Option α :=
  match m with
  | none => some x
  | some v => if v < x then some x else some v

/-- A pipeline ending in `max()`: fold `maxStep` over the source starting
from the disengaged optional, then `end()` hands the optional to the
terminal `process_complete`/`finalize`, which passes the non-tuple value
through unchanged. -/
def maxRun (xs : List α) : Option α :=
  xs.foldl maxStep none

end MaxStage

/-! ## Theorems about `take_n` (claim C2) -/

section TakeNProofs

variable {α : Type}

theorem takeN_go_spec (xs : List α) :
    ∀ (n : Nat) (out : List α), n ≠ 0 →
      iterateLikeGo takeNDone takeNStep (n, out) xs =
        (n - min n xs.length, out ++ xs.take n) := by
  induction xs with
  | nil =>
    intro n out _
    simp [iterateLikeGo]
  | cons x xs ih =>
    intro n out hn
    have hstep : takeNStep (n, out) x = (n - 1, out ++ [x]) := by
      simp [takeNStep, hn]
    by_cases h1 : n = 1
    · subst h1
      simp [iterateLikeGo, hstep, takeNDone]
    · have hn1 : n - 1 ≠ 0 := by omega
      have hdone : takeNDone ((n : Nat) - 1, out ++ [x]) = false := by
        simp [takeNDone]; omega
      rw [iterateLikeGo, hstep, hdone]
      simp only [if_false, Bool.false_eq_true]
      rw [ih (n - 1) (out ++ [x]) hn1]
      obtain ⟨k, rfl⟩ : ∃ k, n = k + 1 := ⟨n - 1, by omega⟩
      simp only [Prod.mk.injEq]
      refine ⟨by simp; omega, by simp [List.take_succ_cons]⟩

theorem takeNRun_spec (k : Nat) (xs : List α) :
    takeNRun k xs = (k - min k xs.length, xs.take k) := by
  rcases Nat.eq_zero_or_pos k with hk | hk
  · subst hk
    simp [takeNRun, iterateLike, takeNDone]
  · have hk' : k ≠ 0 := by omega
    rw [takeNRun, iterateLike]
    have : takeNDone ((k : Nat), ([] : List α)) = false := by
      simp [takeNDone]; omega
    rw [this]
    simpa using takeN_go_spec xs k [] hk'

theorem takeN_gen_spec (f : Nat → α) :
    ∀ (n i : Nat) (out : List α) (m : Nat),
      iterateGenFuel takeNDone takeNStep f (n + m + 1) i (n, out) =
        (0, out ++ (List.range' i n).map f) := by
  intro n
  induction n with
  | zero =>
    intro i out m
    simp [iterateGenFuel, takeNDone]
  | succ n ih =>
    intro i out m
    have hdone : takeNDone ((n + 1 : Nat), out) = false := by
      simp [takeNDone]
    have hstep : takeNStep (n + 1, out) (f i) = (n, out ++ [f i]) := by
      simp [takeNStep]
    have harith : n + 1 + m + 1 = (n + m + 1) + 1 := by omega
    rw [harith, iterateGenFuel, hdone]
    simp only [if_false, Bool.false_eq_true]
    rw [hstep, ih (i + 1) (out ++ [f i]) m]
    rw [List.range'_succ]
    simp

/-- C2: `take_n(k)` forwards exactly `min(k, |S|)` elements — the first
ones, in source order — for every finite source; after the `k`-th
forwarded element its `done()` reports true so the driver stops; and over
the infinite generator `f 0, f 1, …` the drive loop reaches the done state
after exactly `k` elements, so any fuel above `k` yields the same final
state: the pipeline terminates having forwarded `f 0, …, f (k-1)`. -/
theorem take_n_forwards_first_min_k_elements :
    (∀ (α : Type) (k : Nat) (xs : List α),
        takeNRun k xs = (k - min k xs.length, xs.take k)) ∧
    (∀ (α : Type) (k : Nat) (xs : List α),
        (takeNRun k xs).2.length = min k xs.length) ∧
    (∀ (α : Type) (k : Nat) (f : Nat → α) (extraFuel : Nat),
        takeNRunGen k f (k + extraFuel + 1) = (0, (List.range k).map f)) ∧
    takeNRunGen 5 (fun i => i) 6 = (0, [0, 1, 2, 3, 4]) := by
  refine ⟨fun α k xs => takeNRun_spec k xs, ?_, ?_, ?_⟩
  · intro α k xs
    rw [takeNRun_spec]
    simp [List.length_take]
  · intro α k f m
    rw [takeNRunGen, takeN_gen_spec f k 0 [] m]
    simp [List.range_eq_range']
  · rfl

end TakeNProofs

/-! ## Theorems about `max_stage` (claim C10) -/

section MaxProofs

variable {α : Type} [LinearOrder α]

theorem maxStep_fold_spec (xs : List α) :
    ∀ v : α, ∃ m, List.foldl maxStep (some v) xs = some m ∧
      (m = v ∨ m ∈ xs) ∧ v ≤ m ∧ ∀ y ∈ xs, y ≤ m := by
  induction xs with
  | nil => intro v; exact ⟨v, rfl, Or.inl rfl, le_refl v, by simp⟩
  | cons x xs ih =>
    intro v
    by_cases h : v < x
    · obtain ⟨m, hm, hmem, hle, hall⟩ := ih x
      refine ⟨m, ?_, ?_, ?_, ?_⟩
      · simpa [maxStep, h] using hm
      · rcases hmem with rfl | hmem
        · exact Or.inr (List.mem_cons_self _ _)
        · exact Or.inr (List.mem_cons_of_mem _ hmem)
      · exact le_of_lt (lt_of_lt_of_le h hle)
      · intro y hy
        rcases List.mem_cons.mp hy with rfl | hy
        · exact hle
        · exact hall y hy
    · obtain ⟨m, hm, hmem, hle, hall⟩ := ih v
      refine ⟨m, ?_, ?_, hle, ?_⟩
      · simpa [maxStep, h] using hm
      · rcases hmem with rfl | hmem
        · exact Or.inl rfl
        · exact Or.inr (List.mem_cons_of_mem _ hmem)
      · intro y hy
        rcases List.mem_cons.mp hy with rfl | hy
        · exact le_trans (le_of_not_lt h) hle
        · exact hall y hy

/-- C10: the `max` stage is total on empty input.  Its aggregate is an
optional of the element type; for the empty source the terminal value is
the disengaged optional, and for a non-empty source it is an engaged
optional holding a maximum element of the source. -/
theorem max_stage_empty_none_nonempty_engaged (α : Type) [LinearOrder α] :
    maxRun ([] : List α) = none ∧
      ∀ (x : α) (xs : List α), ∃ m, maxRun (x :: xs) = some m ∧
        m ∈ x :: xs ∧ ∀ y ∈ x :: xs, y ≤ m := by
  refine ⟨rfl, fun x xs => ?_⟩
  obtain ⟨m, hm, hmem, hle, hall⟩ := maxStep_fold_spec xs x
  refine ⟨m, ?_, ?_, ?_⟩
  · simpa [maxRun, List.foldl_cons, maxStep] using hm
  · rcases hmem with rfl | hmem
    · exact List.mem_cons_self _ _
    · exact List.mem_cons_of_mem _ hmem
  · intro y hy
    rcases List.mem_cons.mp hy with rfl | hy
    · exact hle
    · exact hall y hy

/-- Witness for C10 at a concrete input. -/
theorem max_stage_empty_none_nonempty_engaged_witness :
    ∃ m, maxRun [5, 6, 8, 7] = some m ∧
      m ∈ [5, 6, 8, 7] ∧ ∀ y ∈ [5, 6, 8, 7], y ≤ m :=
  (max_stage_empty_none_nonempty_engaged Nat).2 5 [6, 8, 7]

end MaxProofs

/-! ## `unwrap_optional_stage` (`stages.hpp`, claim C7) -/

section UnwrapOptional

variable {α : Type}

/-- `unwrap_optional_stage::impl::process_incremental` wired to a
collecting next stage.  The state is the stage's carrier
(`std::optional<unit>`, modelled as `Bool`: `true` = engaged) together
with the elements forwarded to the next stage so far.  An engaged input is
forwarded unwrapped; a disengaged input clears the carrier. -/
def unwrapOptStep (st : Bool × List α) (x : Option α) : Bool × List α :=
  match x with
  | some v => (st.1, st.2 ++ [v])
  | none => (false, st.2)

/-- `unwrap_optional_stage::impl::done`: `!carrier.has_value()`. -/
def unwrapOptDone (st : Bool × List α) : Bool :=
  !st.1

/-- Drive a source of optionals through `unwrap_optional` with the
engine's done-checking iteration; the carrier starts engaged
(`carrier = std::make_optional(unit{})`). -/
def unwrapOptRun (xs : List (Option α)) : Bool × List α :=
  iterateLike unwrapOptDone unwrapOptStep (true, []) xs

/-- `unwrap_optional_stage::impl::end` via
`wrap_result_with_optional_if_needed`: when the carrier is engaged the
rest of the chain's completion is invoked and its (non-optional) result is
wrapped with `std::make_optional`; when the carrier is empty the
completion callable is not invoked and the disengaged optional is
returned. -/
def unwrapOptResult (xs : List (Option α)) : Option (List α) :=
  let st := unwrapOptRun xs
  if st.1 then some st.2 else none

theorem unwrapOpt_go_spec (xs : List (Option α)) :
    ∀ out : List α,
      iterateLikeGo unwrapOptDone unwrapOptStep (true, out) xs =
        (xs.all Option.isSome,
          out ++ (xs.takeWhile Option.isSome).filterMap id) := by
  induction xs with
  | nil => intro out; simp [iterateLikeGo]
  | cons x xs ih =>
    intro out
    cases x with
    | none => simp [iterateLikeGo, unwrapOptStep, unwrapOptDone]
    | some v =>
      rw [iterateLikeGo]
      simp only [unwrapOptStep, unwrapOptDone, Bool.not_true, Bool.false_eq_true, if_false]
      rw [ih (out ++ [v])]
      simp [List.takeWhile_cons, Option.isSome]

theorem unwrapOptRun_spec (xs : List (Option α)) :
    unwrapOptRun xs =
      (xs.all Option.isSome, (xs.takeWhile Option.isSome).filterMap id) := by
  rw [unwrapOptRun, iterateLike]
  simp only [unwrapOptDone, Bool.not_true, Bool.false_eq_true, if_false]
  exact unwrapOpt_go_spec xs []

/-- C7: the optional-unwrap stage short-circuits on a data-dependent empty
carrier.  Elements forwarded downstream are exactly the unwrapped values
of the longest engaged-optional initial segment of the source, so nothing
after the first empty optional is forwarded; the terminal result is the
disengaged optional as soon as any empty optional was observed, and
otherwise the downstream result (every element, unwrapped) in an engaged
optional. -/
theorem unwrap_optional_short_circuits :
    (∀ (α : Type) (xs : List (Option α)),
        (unwrapOptRun xs).2 = (xs.takeWhile Option.isSome).filterMap id) ∧
    (∀ (α : Type) (xs : List (Option α)),
        (unwrapOptRun xs).1 = xs.all Option.isSome) ∧
    (∀ (α : Type) (xs : List (Option α)),
        unwrapOptResult xs =
          if xs.all Option.isSome then some (xs.filterMap id) else none) ∧
    unwrapOptResult [some 1, none, some 2] = none ∧
    (unwrapOptRun [some 1, none, some 2]).2 = [1] ∧
    unwrapOptResult [some 1, some 2] = some [1, 2] := by
  refine ⟨?_, ?_, ?_, rfl, rfl, rfl⟩
  · intro α xs; rw [unwrapOptRun_spec]
  · intro α xs; rw [unwrapOptRun_spec]
  · intro α xs
    rw [unwrapOptResult, unwrapOptRun_spec]
    by_cases h : xs.all Option.isSome
    · have : xs.takeWhile Option.isSome = xs := by
        rw [List.takeWhile_eq_self_iff]
        simpa [List.all_eq_true] using h
      simp [h, this]
    · simp [h]

end UnwrapOptional

/-! ## `group_by_stage` (`higher_order.hpp`, claim C1)

A sub-chain built by `make_subchain_for_input` is abstracted by its
state type `σ`, its freshly built state `init`, its
`process_incremental` transition `step`, and its `end()` result
function `fin` (which includes the sub-chain's terminal `finalize`). -/

section GroupBy

variable {α κ σ ρ : Type} [DecidableEq κ]

/-- `group_by_stage::impl::process_incremental`: compute the key of the
input (read-only); if there is no current group or the stored key differs
from the new key, emit the finished group's `(key, sub-chain end)` to the
next stage and start a fresh sub-chain for the new key; then feed the
element into the current group's sub-chain.  Returns the new
`current_group` state and the list of emissions to the next stage. -/
def groupByStep (key : α → κ) (init : σ) (step : σ → α → σ) (fin : σ → ρ)
    (cur : Option (κ × σ)) (x : α) : Option (κ × σ) × List (κ × ρ) :=
  match cur with
  | none => (some (key x, step init x), [])
  | some (ck, cs) =>
    if ck = key x then (some (ck, step cs x), [])
    else (some (key x, step init x), [(ck, fin cs)])

/-- `group_by_stage::impl::emit_current_group` as used by `end()`: emit the
still-open group, if any. -/
def groupByEmit (fin : σ → ρ) : Option (κ × σ) → List (κ × ρ)
  | none => []
  | some (k, s) => [(k, fin s)]

/-- Drive `group_by` over the remaining input from a given
`current_group` state, collecting every emission to the next stage; at end
of input, `end()` emits the final open group. -/
def groupByGo (key : α → κ) (init : σ) (step : σ → α → σ) (fin : σ → ρ) :
    Option (κ × σ) → List α → List (κ × ρ)
  | cur, [] => groupByEmit fin cur
  | cur, x :: xs =>
    let r := groupByStep key init step fin cur x
    r.2 ++ groupByGo key init step fin r.1 xs

/-- A full pipeline run of `group_by(key, subchain)` over a finite source
(`current_group` starts as `std::nullopt`). -/
def groupByRun (key : α → κ) (init : σ) (step : σ → α → σ) (fin : σ → ρ)
    (xs : List α) : List (κ × ρ) :=
  groupByGo key init step fin none xs

/-- Specification vocabulary: the decomposition of a list into its maximal
consecutive runs of equal keys, palindromically to run-length encoding.
Each entry is `(key of the run, elements of the run)`. -/
def runsBy (key : α → κ) : List α → List (κ × List α)
  | [] => []
  | x :: xs =>
    match runsBy key xs with
    | [] => [(key x, [x])]
    | (k, r) :: rest =>
      if key x = k then (k, x :: r) :: rest
      else (key x, [x]) :: (k, r) :: rest

/-- Feeding one run through a fresh sub-chain: the group result the spec
predicts for a run. -/
def runResult (init : σ) (step : σ → α → σ) (fin : σ → ρ) (p : κ × List α) :
    κ × ρ :=
  (p.1, fin (p.2.foldl step init))

/-- The emissions produced from an open group `(k, s)` followed by the
given runs: the first run extends the open group when its key matches. -/
def mergeOpen (init : σ) (step : σ → α → σ) (fin : σ → ρ) (k : κ) (s : σ) :
    List (κ × List α) → List (κ × ρ)
  | [] => [(k, fin s)]
  | (k', r) :: rest =>
    if k' = k then
      (k, fin (r.foldl step s)) :: rest.map (runResult init step fin)
    else
      (k, fin s) :: runResult init step fin (k', r) ::
        rest.map (runResult init step fin)

theorem groupByGo_open_spec (key : α → κ) (init : σ) (step : σ → α → σ)
    (fin : σ → ρ) (xs : List α) :
    ∀ (k : κ) (s : σ),
      groupByGo key init step fin (some (k, s)) xs =
        mergeOpen init step fin k s (runsBy key xs) := by
  induction xs with
  | nil => intro k s; rfl
  | cons x xs ih =>
    intro k s
    by_cases hk : k = key x
    · subst hk
      have hstep : groupByStep key init step fin (some (key x, s)) x =
          (some (key x, step s x), []) := by
        simp [groupByStep]
      rw [groupByGo, hstep]
      simp only [List.nil_append]
      rw [ih, runsBy]
      rcases hr : runsBy key xs with _ | ⟨⟨k1, r⟩, rest⟩
      · simp [mergeOpen]
      · by_cases h1 : key x = k1
        · subst h1
          simp [mergeOpen, runResult]
        · have h1' : k1 ≠ key x := fun h => h1 h.symm
          simp [mergeOpen, runResult, h1, h1']
    · have hk' : key x ≠ k := fun h => hk h.symm
      have hstep : groupByStep key init step fin (some (k, s)) x =
          (some (key x, step init x), [(k, fin s)]) := by
        simp [groupByStep, hk]
      rw [groupByGo, hstep]
      simp only [List.cons_append, List.nil_append]
      rw [ih, runsBy]
      rcases hr : runsBy key xs with _ | ⟨⟨k1, r⟩, rest⟩
      · simp [mergeOpen, runResult, hk']
      · by_cases h1 : key x = k1
        · subst h1
          simp [mergeOpen, runResult, hk']
        · have h1' : k1 ≠ key x := fun h => h1 h.symm
          simp [mergeOpen, runResult, hk', h1, h1']

theorem groupByRun_eq_runs (key : α → κ) (init : σ) (step : σ → α → σ)
    (fin : σ → ρ) (xs : List α) :
    groupByRun key init step fin xs =
      (runsBy key xs).map (runResult init step fin) := by
  cases xs with
  | nil => rfl
  | cons x xs =>
    rw [groupByRun, groupByGo]
    simp only [groupByStep, List.nil_append]
    rw [groupByGo_open_spec]
    rw [runsBy]
    rcases hr : runsBy key xs with _ | ⟨⟨k1, r⟩, rest⟩
    · simp [mergeOpen, runResult]
    · by_cases h1 : key x = k1
      · subst h1
        simp [mergeOpen, runResult]
      · have h1' : k1 ≠ key x := fun h => h1 h.symm
        simp [mergeOpen, runResult, h1, h1']

theorem runsBy_join (key : α → κ) (xs : List α) :
    ((runsBy key xs).map Prod.snd).flatten = xs := by
  induction xs with
  | nil => rfl
  | cons x xs ih =>
    rw [runsBy]
    rcases hr : runsBy key xs with _ | ⟨⟨k1, r⟩, rest⟩
    · rw [hr] at ih
      simp only [List.map_nil, List.flatten_nil] at ih
      subst ih
      simp
    · rw [hr] at ih
      by_cases h1 : key x = k1
      · simp only [if_pos h1]
        simp only [List.map_cons, List.flatten_cons] at ih ⊢
        simp [ih]
      · simp only [if_neg h1]
        simp only [List.map_cons, List.flatten_cons] at ih ⊢
        simp [ih]

theorem runsBy_adjacent_keys_distinct (key : α → κ) (xs : List α) :
    List.Chain' (· ≠ ·) ((runsBy key xs).map Prod.fst) := by
  induction xs with
  | nil => simp [runsBy]
  | cons x xs ih =>
    rw [runsBy]
    rcases hr : runsBy key xs with _ | ⟨⟨k1, r⟩, rest⟩
    · simp
    · rw [hr] at ih
      by_cases h1 : key x = k1
      · simp only [if_pos h1]
        simpa using ih
      · simp only [if_neg h1]
        simp only [List.map_cons] at ih ⊢
        exact List.Chain'.cons h1 ih

theorem runsBy_runs_wellformed (key : α → κ) (xs : List α) :
    (runsBy key xs).all
      (fun p => !p.2.isEmpty &&
        p.2.all (fun a => decide (key a = p.1))) = true := by
  induction xs with
  | nil => rfl
  | cons x xs ih =>
    rw [runsBy]
    rcases hr : runsBy key xs with _ | ⟨⟨k1, r⟩, rest⟩
    · simp
    · rw [hr] at ih
      by_cases h1 : key x = k1
      · simp only [if_pos h1]
        simp only [List.all_cons] at ih ⊢
        simp_all
        exact ih.2
      · simp only [if_neg h1]
        simp only [List.all_cons] at ih ⊢
        simp_all
        exact ih.2

end GroupBy

/-- C1: `group_by(key, subchain)` groups maximal consecutive runs of equal
keys.  For every input, the emissions to the next stage are exactly one
`(key, sub-chain result)` pair per maximal consecutive run, in input
order, each run fed through a fresh sub-chain; `runsBy` really is the
maximal-run decomposition (its runs concatenate back to the input, every
run is nonempty with all elements mapping to the run's key, and adjacent
runs have distinct keys, so equal keys appearing non-consecutively land in
separate groups); and `group_by(identity)` with a collecting sub-chain
over `[1,1,2,2,2,1,3,3]` yields exactly the four groups of the spec in
order. -/
theorem group_by_emits_maximal_consecutive_runs :
    (∀ (α κ σ ρ : Type) [DecidableEq κ] (key : α → κ) (init : σ)
        (step : σ → α → σ) (fin : σ → ρ) (xs : List α),
        groupByRun key init step fin xs =
          (runsBy key xs).map (runResult init step fin)) ∧
    (∀ (α κ : Type) [DecidableEq κ] (key : α → κ) (xs : List α),
        ((runsBy key xs).map Prod.snd).flatten = xs) ∧
    (∀ (α κ : Type) [DecidableEq κ] (key : α → κ) (xs : List α),
        List.Chain' (· ≠ ·) ((runsBy key xs).map Prod.fst)) ∧
    (∀ (α κ : Type) [DecidableEq κ] (key : α → κ) (xs : List α),
        (runsBy key xs).all
          (fun p => !p.2.isEmpty &&
            p.2.all (fun a => decide (key a = p.1))) = true) ∧
    groupByRun (id : Nat → Nat) ([] : List Nat) (fun s a => s ++ [a]) id
        [1, 1, 2, 2, 2, 1, 3, 3] =
      [(1, [1, 1]), (2, [2, 2, 2]), (1, [1]), (3, [3, 3])] :=
  ⟨fun _ _ _ _ _ key init step fin xs => groupByRun_eq_runs key init step fin xs,
   fun _ _ _ key xs => runsBy_join key xs,
   fun _ _ _ key xs => runsBy_adjacent_keys_distinct key xs,
   fun _ _ _ key xs => runsBy_runs_wellformed key xs,
   by rfl⟩

/-! ## `map_group_by_stage` (`higher_order.hpp`, claim C4)

The key→sub-chain `Map` template parameter is modelled as an association
list in insertion order; sub-chains are abstracted as for `group_by`. -/

section MapGroupBy

variable {α κ σ ρ : Type} [DecidableEq κ]

/-- Lookup in the key→sub-chain map (first entry with the given key). -/
def alookup : List (κ × σ) → κ → Option σ
  | [], _ => none
  | p :: m, k => if p.1 = k then some p.2 else alookup m k

/-- `map_group_by_stage::impl::process_incremental`: compute the key of
the input (read-only); `try_emplace` a freshly built sub-chain for the key
if it is absent (`chain_maker`); feed the element into the key's
sub-chain.  Nothing is emitted to the next stage. -/
def mgbStep (key : α → κ) (init : σ) (step : σ → α → σ)
    (m : List (κ × σ)) (x : α) : List (κ × σ) :=
  match alookup m (key x) with
  | some _ => m.map (fun p => if p.1 = key x then (p.1, step p.2 x) else p)
  | none => m ++ [(key x, step init x)]

/-- The incremental phase of `map_group_by` over a finite source. -/
def mgbProcessAll (key : α → κ) (init : σ) (step : σ → α → σ)
    (m : List (κ × σ)) (xs : List α) : List (κ × σ) :=
  xs.foldl (mgbStep key init step) m

/-- `map_group_by_stage::impl::end`: iterate the entire map, emitting
`(key, sub-chain end)` for every entry to the next stage (collected here),
then end the next stage. -/
def mgbRun (key : α → κ) (init : σ) (step : σ → α → σ) (fin : σ → ρ)
    (xs : List α) : List (κ × ρ) :=
  (mgbProcessAll key init step [] xs).map (fun p => (p.1, fin p.2))

theorem alookup_update (m : List (κ × σ)) (k kx : κ) (f : σ → σ) :
    alookup (m.map (fun p => if p.1 = kx then (p.1, f p.2) else p)) k =
      if kx = k then (alookup m k).map f else alookup m k := by
  induction m with
  | nil => by_cases h : kx = k <;> simp [alookup, h]
  | cons p m ih =>
    by_cases hp : p.1 = kx
    · by_cases hkk : kx = k
      · subst hkk
        simp [alookup, hp, ih]
      · have hpk : ¬p.1 = k := fun h => hkk (hp ▸ h)
        simp [alookup, hp, hpk, ih, hkk]
    · by_cases hpk : p.1 = k
      · have hkk : ¬kx = k := fun h => hp (by rw [hpk, h])
        have hkk' : ¬k = kx := fun h => hkk h.symm
        simp [alookup, hp, hpk, hkk, hkk']
      · simp [alookup, hp, hpk, ih]

theorem alookup_append_single (m : List (κ × σ)) (k kx : κ) (v : σ) :
    alookup (m ++ [(kx, v)]) k =
      match alookup m k with
      | some s => some s
      | none => if kx = k then some v else none := by
  induction m with
  | nil => simp [alookup]
  | cons p m ih =>
    by_cases hpk : p.1 = k
    · simp [alookup, hpk]
    · simp [alookup, hpk, ih]

theorem alookup_none_iff (m : List (κ × σ)) (k : κ) :
    alookup m k = none ↔ k ∉ m.map Prod.fst := by
  induction m with
  | nil => simp [alookup]
  | cons p m ih =>
    by_cases hpk : p.1 = k
    · simp [alookup, hpk]
    · have hpk' : ¬k = p.1 := fun h => hpk h.symm
      simp [alookup, hpk, hpk', ih]

theorem mgb_lookup_spec (key : α → κ) (init : σ) (step : σ → α → σ)
    (xs : List α) :
    ∀ (m : List (κ × σ)) (k : κ),
      alookup (mgbProcessAll key init step m xs) k =
        match alookup m k with
        | some s =>
            some ((xs.filter (fun a => decide (key a = k))).foldl step s)
        | none =>
            if (xs.filter (fun a => decide (key a = k))).isEmpty then none
            else some ((xs.filter (fun a => decide (key a = k))).foldl step init) := by
  induction xs with
  | nil =>
    intro m k
    rcases h : alookup m k with _ | s <;> simp [mgbProcessAll, h]
  | cons x xs ih =>
    intro m k
    have hfold : mgbProcessAll key init step m (x :: xs) =
        mgbProcessAll key init step (mgbStep key init step m x) xs := rfl
    rw [hfold, ih]
    by_cases hxk : key x = k
    · have hfilter : (x :: xs).filter (fun a => decide (key a = k)) =
          x :: xs.filter (fun a => decide (key a = k)) := by
        simp [List.filter_cons, hxk]
      rcases hl : alookup m (key x) with _ | s0
      · have hmk : alookup m k = none := by rw [← hxk]; exact hl
        have hm' : alookup (mgbStep key init step m x) k =
            some (step init x) := by
          simp only [mgbStep, hl]
          rw [alookup_append_single, hmk]
          simp [hxk]
        rw [hm', hfilter, hmk]
        simp
      · have hmk : alookup m k = some s0 := by rw [← hxk]; exact hl
        have hm' : alookup (mgbStep key init step m x) k =
            some (step s0 x) := by
          simp only [mgbStep, hl]
          rw [alookup_update m k (key x) (fun s => step s x), if_pos hxk, hmk]
          rfl
        rw [hm', hfilter, hmk]
        simp
    · have hfilter : (x :: xs).filter (fun a => decide (key a = k)) =
          xs.filter (fun a => decide (key a = k)) := by
        simp [List.filter_cons, hxk]
      have hm' : alookup (mgbStep key init step m x) k = alookup m k := by
        rcases hl : alookup m (key x) with _ | s0
        · simp only [mgbStep, hl]
          rw [alookup_append_single]
          rcases hmk : alookup m k with _ | s <;> simp [hmk, hxk]
        · simp only [mgbStep, hl]
          rw [alookup_update m k (key x) (fun s => step s x), if_neg hxk]
      rw [hm', hfilter]

theorem mgbStep_keys (key : α → κ) (init : σ) (step : σ → α → σ)
    (m : List (κ × σ)) (x : α) :
    (mgbStep key init step m x).map Prod.fst =
      match alookup m (key x) with
      | some _ => m.map Prod.fst
      | none => m.map Prod.fst ++ [key x] := by
  rcases hl : alookup m (key x) with _ | s
  · simp [mgbStep, hl]
  · simp only [mgbStep, hl, List.map_map]
    congr 1
    funext p
    by_cases hp : p.1 = key x <;> simp [hp]

theorem mgb_keys_nodup (key : α → κ) (init : σ) (step : σ → α → σ)
    (xs : List α) :
    ∀ m : List (κ × σ), ((m.map Prod.fst).Nodup) →
      ((mgbProcessAll key init step m xs).map Prod.fst).Nodup := by
  induction xs with
  | nil => intro m hm; exact hm
  | cons x xs ih =>
    intro m hm
    have hfold : mgbProcessAll key init step m (x :: xs) =
        mgbProcessAll key init step (mgbStep key init step m x) xs := rfl
    rw [hfold]
    apply ih
    rw [mgbStep_keys]
    rcases hl : alookup m (key x) with _ | s
    · have hnotin : key x ∉ m.map Prod.fst := (alookup_none_iff m (key x)).mp hl
      simp [List.nodup_append, hm, hnotin]
    · exact hm

end MapGroupBy

/-- C4: `map_group_by(key, subchain)` performs global grouping.  After the
incremental phase, the key→sub-chain map associates to each key occurring
in the input (and no other key) the sub-chain fed, in order, every input
element with that key, each sub-chain created lazily at its key's first
occurrence; on end exactly one `(key, sub-chain result)` pair per distinct
key is emitted (keys are pairwise distinct), and with a counting sub-chain
the emissions over `[1,1,2,2,2,1,3,3]` form the multiset
`{(1,3),(2,3),(3,2)}` (stated up to permutation, as the emission order is
the map's iteration order). -/
theorem map_group_by_groups_globally :
    (∀ (α κ σ : Type) [DecidableEq κ] (key : α → κ) (init : σ)
        (step : σ → α → σ) (xs : List α) (k : κ),
        alookup (mgbProcessAll key init step [] xs) k =
          if (xs.filter (fun a => decide (key a = k))).isEmpty then none
          else some ((xs.filter (fun a => decide (key a = k))).foldl step init)) ∧
    (∀ (α κ σ : Type) [DecidableEq κ] (key : α → κ) (init : σ)
        (step : σ → α → σ) (xs : List α),
        ((mgbProcessAll key init step [] xs).map Prod.fst).Nodup) ∧
    (∀ (α κ σ ρ : Type) [DecidableEq κ] (key : α → κ) (init : σ)
        (step : σ → α → σ) (fin : σ → ρ) (xs : List α),
        (mgbRun key init step fin xs).map Prod.fst =
          (mgbProcessAll key init step [] xs).map Prod.fst) ∧
    (mgbRun (id : Nat → Nat) (0 : Nat) (fun s _ => s + 1) id
        [1, 1, 2, 2, 2, 1, 3, 3]).Perm [(1, 3), (2, 3), (3, 2)] := by
  refine ⟨?_, ?_, ?_, ?_⟩
  · intro α κ σ _ key init step xs k
    rw [mgb_lookup_spec key init step xs [] k]
    rfl
  · intro α κ σ _ key init step xs
    exact mgb_keys_nodup key init step xs [] (by simp)
  · intro α κ σ ρ _ key init step fin xs
    simp [mgbRun]
  · decide

/-! ## `tee_stage` (`higher_order.hpp`, claim C6) -/

section Tee

variable {α : Type}

/-- One sub-chain of a `tee_stage`, abstracted by its state type, result
type, freshly built state (`make_chains_tuple`), `process_incremental`
transition and `end()` result function (which includes the sub-chain's
terminal `finalize`). -/
structure TeeSub (α : Type) where
  State : Type
  Out : Type
  init : State
  step : State → α → State
  fin : State → Out

/-- `tee_stage::impl::process_incremental`: the input is fed, as an
immutable view (`std::as_const(input)`, never moved), into every
sub-chain in the order the sub-chains were given.  Pointwise: every
sub-chain receives the same element and only its own state changes. -/
def teeProcess (n : Nat) (subs : Fin n → TeeSub α)
    (st : ∀ i, (subs i).State) (x : α) : ∀ i, (subs i).State :=
  fun i => (subs i).step (st i) x

/-- The sub-chain states built at construction time. -/
def teeInit (n : Nat) (subs : Fin n → TeeSub α) : ∀ i, (subs i).State :=
  fun i => (subs i).init

/-- `tee_stage::impl::end` via `make_result_tuple`: collect every
sub-chain's `end()` into a fixed-arity record in the original order. -/
def teeEnd (n : Nat) (subs : Fin n → TeeSub α)
    (st : ∀ i, (subs i).State) : ∀ i, (subs i).Out :=
  fun i => (subs i).fin (st i)

/-- A full pipeline run of `tee(sub1 … subN)` over a finite source. -/
def teeRun (n : Nat) (subs : Fin n → TeeSub α) (xs : List α) :
    ∀ i, (subs i).Out :=
  teeEnd n subs (xs.foldl (teeProcess n subs) (teeInit n subs))

/-- The `count()` sub-chain (`count_stage`, `stages.hpp`). -/
def countSub : TeeSub Nat :=
  ⟨Nat, Nat, 0, fun s _ => s + 1, id⟩

/-- The `max()` sub-chain (`max_stage`, `stages.hpp`). -/
def maxSubNat : TeeSub Nat :=
  ⟨Option Nat, Option Nat, none, maxStep, id⟩

/-- The sub-chain pack of `tee(count(), max())`. -/
def teeCountMax : Fin 2 → TeeSub Nat :=
  fun i => if i.val = 0 then countSub else maxSubNat

theorem teeProcess_fold (n : Nat) (subs : Fin n → TeeSub α) (xs : List α) :
    ∀ (st : ∀ i, (subs i).State) (i : Fin n),
      (xs.foldl (teeProcess n subs) st) i = xs.foldl (subs i).step (st i) := by
  induction xs with
  | nil => intro st i; rfl
  | cons x xs ih =>
    intro st i
    simpa [teeProcess] using ih (teeProcess n subs st x) i

end Tee

/-- C6: `tee(sub1 … subN)` feeds every incoming element into each of its
`N` sub-chains and, on end, collects each sub-chain's final value into a
fixed-arity record in the original order: the `i`-th component of the
result is exactly the `i`-th sub-chain run on its own over the very same
input stream (so the sub-results do not interfere), and
`tee(count(), max())` over `[5,6,8,7]` yields the record `(4, some 8)`. -/
theorem tee_runs_subchains_independently :
    (∀ (α : Type) (n : Nat) (subs : Fin n → TeeSub α) (xs : List α)
        (i : Fin n),
        teeRun n subs xs i =
          (subs i).fin (xs.foldl (subs i).step (subs i).init)) ∧
    teeRun 2 teeCountMax [5, 6, 8, 7] 0 = (4 : Nat) ∧
    teeRun 2 teeCountMax [5, 6, 8, 7] 1 = (some 8 : Option Nat) := by
  refine ⟨?_, rfl, rfl⟩
  intro α n subs xs i
  rw [teeRun, teeEnd]
  rw [teeProcess_fold n subs xs (teeInit n subs) i]
  rfl

/-! ## The C++ type grammar of `finalize` and `flatten` (claims C3, C5, C8)

`finalize.hpp` and `flatten_stage::change_last_arg_impl` are compile-time
computations on C++ types.  `Ty` is a deep embedding of the relevant type
grammar: base value types, `const T`, lvalue references `T&` (a reference
to const is `ref (cnst t)`), rvalue references `T&&`,
`std::reference_wrapper<T>`, `std::pair`, `std::tuple` and the bundle
`args<…>`.  C++ collapses nested references and redundant `const`, so
qualifiers never stack in the types the library manipulates. -/

mutual

inductive Ty : Type where
  | base : Nat → Ty
  | cnst : Ty → Ty
  | ref : Ty → Ty
  | rref : Ty → Ty
  | refWrapper : Ty → Ty
  | pairT : Ty → Ty → Ty
  | tupleT : TyList → Ty
  | argsT : TyList → Ty

inductive TyList : Type where
  | nil : TyList
  | cons : Ty → TyList → TyList

end

/-- Convenience conversion for writing `TyList` literals. -/
def tyListOf : List Ty → TyList
  | [] => .nil
  | t :: ts => .cons t (tyListOf ts)

/-- `std::remove_cvref_t`: strip the top-level reference and const
qualifiers (qualifiers never stack in C++ types). -/
def removeCvref : Ty → Ty
  | .ref (.cnst t) => t
  | .ref t => t
  | .rref (.cnst t) => t
  | .rref t => t
  | .cnst t => t
  | t => t

mutual

/-- `finalize_result_t<T, UnwrapRefWrappers>` (`finalize.hpp`):
`remove_cvref` the type (the reference/const clauses recurse through the
qualifier, which coincides with `remove_cvref` because qualifiers never
stack), then by `finalize_result_helper` on the decayed type: a
`reference_wrapper<T>` becomes `T&` when unwrapping is requested (and is
kept as-is otherwise — the `to_stage` setting); `pair`/`tuple`/`args` are
rebuilt with every element converted recursively; any other decayed type
is returned unchanged. -/
def finalizeResultTy (u : Bool) : Ty → Ty
  | .base n => .base n
  | .cnst t => finalizeResultTy u t
  | .ref t => finalizeResultTy u t
  | .rref t => finalizeResultTy u t
  | .refWrapper t => if u then .ref t else .refWrapper t
  | .pairT a b => .pairT (finalizeResultTy u a) (finalizeResultTy u b)
  | .tupleT l => .tupleT (finalizeResultTyList u l)
  | .argsT l => .argsT (finalizeResultTyList u l)

def finalizeResultTyList (u : Bool) : TyList → TyList
  | .nil => .nil
  | .cons t l => .cons (finalizeResultTy u t) (finalizeResultTyList u l)

end

/-- `detail::finalize` (`finalize.hpp`) at the type level: when the
decayed output type is `args`/`tuple`/`pair`, the result is rebuilt as
`finalize_result_t<Output, true>`; otherwise the `auto` return decays the
value, preserving a top-level `reference_wrapper` as-is. -/
def finalizeTy (t : Ty) : Ty :=
  match removeCvref t with
  | .argsT l => .argsT (finalizeResultTyList true l)
  | .tupleT l => .tupleT (finalizeResultTyList true l)
  | .pairT a b => .pairT (finalizeResultTy true a) (finalizeResultTy true b)
  | d => d

mutual

/-- No `std::reference_wrapper` marker occurs anywhere in the type. -/
def wrapperFreeTy : Ty → Bool
  | .base _ => true
  | .cnst t => wrapperFreeTy t
  | .ref t => wrapperFreeTy t
  | .rref t => wrapperFreeTy t
  | .refWrapper _ => false
  | .pairT a b => wrapperFreeTy a && wrapperFreeTy b
  | .tupleT l => wrapperFreeTyList l
  | .argsT l => wrapperFreeTyList l

def wrapperFreeTyList : TyList → Bool
  | .nil => true
  | .cons t l => wrapperFreeTy t && wrapperFreeTyList l

end

mutual

/-- The type denotes a plain owned value: no reference, no const
qualifier and no reference-wrapper marker at any depth of tuple-like
structure. -/
def ownedTy : Ty → Bool
  | .base _ => true
  | .pairT a b => ownedTy a && ownedTy b
  | .tupleT l => ownedTyList l
  | .argsT l => ownedTyList l
  | _ => false

def ownedTyList : TyList → Bool
  | .nil => true
  | .cons t l => ownedTy t && ownedTyList l

end

mutual

theorem finalizeResultTy_owned_of_wrapperFree :
    ∀ t : Ty, wrapperFreeTy t = true →
      ownedTy (finalizeResultTy true t) = true
  | .base _, _ => rfl
  | .cnst t, h => finalizeResultTy_owned_of_wrapperFree t h
  | .ref t, h => finalizeResultTy_owned_of_wrapperFree t h
  | .rref t, h => finalizeResultTy_owned_of_wrapperFree t h
  | .refWrapper _, h => by simp [wrapperFreeTy] at h
  | .pairT a b, h => by
      simp only [wrapperFreeTy, Bool.and_eq_true] at h
      simp only [finalizeResultTy, ownedTy, Bool.and_eq_true]
      exact ⟨finalizeResultTy_owned_of_wrapperFree a h.1,
             finalizeResultTy_owned_of_wrapperFree b h.2⟩
  | .tupleT l, h => by
      simp only [wrapperFreeTy] at h
      simp only [finalizeResultTy, ownedTy]
      exact finalizeResultTyList_owned_of_wrapperFree l h
  | .argsT l, h => by
      simp only [wrapperFreeTy] at h
      simp only [finalizeResultTy, ownedTy]
      exact finalizeResultTyList_owned_of_wrapperFree l h

theorem finalizeResultTyList_owned_of_wrapperFree :
    ∀ l : TyList, wrapperFreeTyList l = true →
      ownedTyList (finalizeResultTyList true l) = true
  | .nil, _ => rfl
  | .cons t l, h => by
      simp only [wrapperFreeTyList, Bool.and_eq_true] at h
      simp only [finalizeResultTyList, ownedTyList, Bool.and_eq_true]
      exact ⟨finalizeResultTy_owned_of_wrapperFree t h.1,
             finalizeResultTyList_owned_of_wrapperFree l h.2⟩

end

/-- C3: at the terminal boundary, `finalize` converts the chain's final
value to value semantics.  Tuple-like results (`args`, `pair`, `tuple`)
are walked recursively; a directly-held reference (`T&`, `const T&`,
`T&&`) at any position is decayed and its referent converted to an owned
value, so a wrapper-free type finalizes to a fully owned value at every
nesting depth; a `reference_wrapper` marker found at any depth is
unwrapped to the live reference `T&` with the referent's own substructure
left untouched; the concrete conversions match `tests/test_finalize.cpp`. -/
theorem finalize_owns_refs_unwraps_markers :
    (∀ t : Ty, finalizeResultTy true (Ty.refWrapper t) = Ty.ref t) ∧
    (∀ (u : Bool) (t : Ty),
        finalizeResultTy u (Ty.ref t) = finalizeResultTy u t) ∧
    (∀ (u : Bool) (t : Ty),
        finalizeResultTy u (Ty.rref t) = finalizeResultTy u t) ∧
    (∀ (u : Bool) (t : Ty),
        finalizeResultTy u (Ty.cnst t) = finalizeResultTy u t) ∧
    (∀ l : TyList, finalizeTy (Ty.argsT l) =
        Ty.argsT (finalizeResultTyList true l)) ∧
    (∀ l : TyList, finalizeTy (Ty.tupleT l) =
        Ty.tupleT (finalizeResultTyList true l)) ∧
    (∀ a b : Ty, finalizeTy (Ty.pairT a b) =
        Ty.pairT (finalizeResultTy true a) (finalizeResultTy true b)) ∧
    (∀ (u : Bool) (t : Ty) (l : TyList),
        finalizeResultTyList u (TyList.cons t l) =
          TyList.cons (finalizeResultTy u t) (finalizeResultTyList u l)) ∧
    (∀ t : Ty, wrapperFreeTy t = true →
        ownedTy (finalizeResultTy true t) = true) ∧
    finalizeTy (Ty.argsT (tyListOf
        [Ty.base 0, Ty.cnst (Ty.base 1), Ty.ref (Ty.base 2),
         Ty.ref (Ty.cnst (Ty.base 3)), Ty.rref (Ty.base 4),
         Ty.rref (Ty.cnst (Ty.base 5))])) =
      Ty.argsT (tyListOf
        [Ty.base 0, Ty.base 1, Ty.base 2, Ty.base 3, Ty.base 4,
         Ty.base 5]) ∧
    finalizeTy (Ty.argsT (tyListOf
        [Ty.refWrapper (Ty.pairT (Ty.ref (Ty.base 0)) (Ty.rref (Ty.base 1)))])) =
      Ty.argsT (tyListOf
        [Ty.ref (Ty.pairT (Ty.ref (Ty.base 0)) (Ty.rref (Ty.base 1)))]) ∧
    finalizeTy (Ty.refWrapper (Ty.base 0)) = Ty.refWrapper (Ty.base 0) :=
  ⟨fun _ => rfl, fun _ _ => rfl, fun _ _ => rfl, fun _ _ => rfl,
   fun _ => rfl, fun _ => rfl, fun _ _ => rfl, fun _ _ _ => rfl,
   finalizeResultTy_owned_of_wrapperFree, rfl, rfl, rfl⟩

/-- Witness for C3 at a concrete input: a tuple holding a mutable
reference and an owned value is wrapper-free, and finalizing it yields a
fully owned value. -/
theorem finalize_owns_refs_unwraps_markers_witness :
    wrapperFreeTy (Ty.tupleT (tyListOf [Ty.ref (Ty.base 0), Ty.base 1])) = true ∧
    ownedTy (finalizeResultTy true
      (Ty.tupleT (tyListOf [Ty.ref (Ty.base 0), Ty.base 1]))) = true :=
  ⟨rfl, finalize_owns_refs_unwraps_markers.2.2.2.2.2.2.2.2.1 _ rfl⟩

/-! ## Idempotence of `finalize` on owned values (claim C8) -/

mutual

theorem finalizeResultTy_fix_of_owned :
    ∀ t : Ty, ownedTy t = true → finalizeResultTy true t = t
  | .base _, _ => rfl
  | .cnst _, h => by simp [ownedTy] at h
  | .ref _, h => by simp [ownedTy] at h
  | .rref _, h => by simp [ownedTy] at h
  | .refWrapper _, h => by simp [ownedTy] at h
  | .pairT a b, h => by
      simp only [ownedTy, Bool.and_eq_true] at h
      simp only [finalizeResultTy]
      rw [finalizeResultTy_fix_of_owned a h.1,
          finalizeResultTy_fix_of_owned b h.2]
  | .tupleT l, h => by
      simp only [ownedTy] at h
      simp only [finalizeResultTy]
      rw [finalizeResultTyList_fix_of_owned l h]
  | .argsT l, h => by
      simp only [ownedTy] at h
      simp only [finalizeResultTy]
      rw [finalizeResultTyList_fix_of_owned l h]

theorem finalizeResultTyList_fix_of_owned :
    ∀ l : TyList, ownedTyList l = true → finalizeResultTyList true l = l
  | .nil, _ => rfl
  | .cons t l, h => by
      simp only [ownedTyList, Bool.and_eq_true] at h
      simp only [finalizeResultTyList]
      rw [finalizeResultTy_fix_of_owned t h.1,
          finalizeResultTyList_fix_of_owned l h.2]

end

theorem finalizeTy_fix_of_owned :
    ∀ t : Ty, ownedTy t = true → finalizeTy t = t
  | .base _, _ => rfl
  | .cnst _, h => by simp [ownedTy] at h
  | .ref _, h => by simp [ownedTy] at h
  | .rref _, h => by simp [ownedTy] at h
  | .refWrapper _, h => by simp [ownedTy] at h
  | .pairT a b, h => by
      simp only [ownedTy, Bool.and_eq_true] at h
      show Ty.pairT (finalizeResultTy true a) (finalizeResultTy true b) =
        Ty.pairT a b
      rw [finalizeResultTy_fix_of_owned a h.1,
          finalizeResultTy_fix_of_owned b h.2]
  | .tupleT l, h => by
      simp only [ownedTy] at h
      show Ty.tupleT (finalizeResultTyList true l) = Ty.tupleT l
      rw [finalizeResultTyList_fix_of_owned l h]
  | .argsT l, h => by
      simp only [ownedTy] at h
      show Ty.argsT (finalizeResultTyList true l) = Ty.argsT l
      rw [finalizeResultTyList_fix_of_owned l h]

/-- C8: `finalize` is idempotent on already-owned values: a value whose
type carries no residual reference, const qualifier or borrow marker — at
every position of tuple-like structure, or any non-tuple owned value — is
returned unchanged, and applying `finalize` twice equals applying it
once. -/
theorem finalize_idempotent_on_owned_values :
    ∀ t : Ty, ownedTy t = true →
      finalizeTy t = t ∧ finalizeTy (finalizeTy t) = finalizeTy t := by
  intro t h
  have h1 := finalizeTy_fix_of_owned t h
  refine ⟨h1, ?_⟩
  rw [h1]
  exact h1

/-- Witness for C8 at a concrete owned value type. -/
theorem finalize_idempotent_on_owned_values_witness :
    ownedTy (Ty.argsT (tyListOf
      [Ty.base 0, Ty.pairT (Ty.base 1) (Ty.base 2)])) = true ∧
    (finalizeTy (Ty.argsT (tyListOf
        [Ty.base 0, Ty.pairT (Ty.base 1) (Ty.base 2)])) =
      Ty.argsT (tyListOf [Ty.base 0, Ty.pairT (Ty.base 1) (Ty.base 2)]) ∧
     finalizeTy (finalizeTy (Ty.argsT (tyListOf
        [Ty.base 0, Ty.pairT (Ty.base 1) (Ty.base 2)]))) =
      finalizeTy (Ty.argsT (tyListOf
        [Ty.base 0, Ty.pairT (Ty.base 1) (Ty.base 2)]))) :=
  ⟨rfl, finalize_idempotent_on_owned_values _ rfl⟩

/-! ## `flatten_stage` safe mode (`stages.hpp`, claim C5) -/

/-- `flatten_stage::change_last_arg_impl` for a non-last position: the
type at which the position is re-emitted alongside each element of the
iterated last position.  `preserve = false` is `flatten()` (the safe
default), `preserve = true` is `flatten_forward()`.  A rvalue reference is
preserved when forwarding, and otherwise degraded by `std::as_const` to a
reference-to-const; lvalue references (const or not) are preserved; a
value type is presented by `std::as_const` as a reference-to-const. -/
def flattenNonLastTy (preserve : Bool) : Ty → Ty
  | .rref t => if preserve then .rref t else .ref (.cnst (removeCvref t))
  | .ref t => .ref t
  | t => .ref (.cnst (removeCvref t))

/-- `flatten_stage::change_last_arg`: rebuild the bundle's position types,
transforming every non-last position with `change_last_arg_impl` and
replacing the last position with the iterated element's type. -/
def changeLastArgTy (preserve : Bool) : List Ty → Ty → List Ty
  | [], _ => []
  | [_], sub => [sub]
  | t :: t2 :: ts, sub =>
    flattenNonLastTy preserve t :: changeLastArgTy preserve (t2 :: ts) sub

/-- `flatten_stage::impl::process_incremental`: one emission per element
produced by iterating the bundle's last position; every emission re-emits
the (lvalue) input bundle through `change_last_arg`. -/
def flattenEmissionsTy (preserve : Bool) (tys : List Ty) (subTys : List Ty) :
    List (List Ty) :=
  subTys.map (changeLastArgTy preserve tys)

/-- A read-only (immutable) view: a reference to const. -/
def isImmutableViewTy : Ty → Bool
  | .ref (.cnst _) => true
  | _ => false

/-- Presented by movable ownership: an rvalue reference, or a plain
(non-reference) value that could be materialized and moved from. -/
def isMovableTy : Ty → Bool
  | .rref _ => true
  | .ref _ => false
  | _ => true

/-- A mutable lvalue reference (a reference not to const). -/
def isMutableRefTy : Ty → Bool
  | .ref (.cnst _) => false
  | .ref _ => true
  | _ => false

/-- Counterexample to C5 as stated: it is not the case that every
non-last position of a safe-mode (`flatten()`) re-emission is an
immutable (read-only) view.  A bundle whose first position is a mutable
lvalue reference `T&` is re-emitted with that position still a mutable
reference (`change_last_arg_impl` preserves lvalue references, const or
not). -/
theorem flatten_safe_counterexample :
    ¬ (∀ (tys : List Ty) (sub : Ty),
        ∀ t ∈ (changeLastArgTy false tys sub).dropLast,
          isImmutableViewTy t = true) := by
  intro h
  have hmem : Ty.ref (Ty.base 0) ∈
      (changeLastArgTy false [Ty.ref (Ty.base 0), Ty.base 1]
        (Ty.base 2)).dropLast :=
    List.mem_cons_self _ _
  have := h [Ty.ref (Ty.base 0), Ty.base 1] (Ty.base 2)
    (Ty.ref (Ty.base 0)) hmem
  simp [isImmutableViewTy] at this

theorem changeLastArgTy_spec (preserve : Bool) :
    ∀ (tys : List Ty) (sub : Ty),
      changeLastArgTy preserve tys sub =
        tys.dropLast.map (flattenNonLastTy preserve) ++
          (if tys.isEmpty then [] else [sub])
  | [], _ => rfl
  | [_], _ => rfl
  | t :: t2 :: ts, sub => by
    show flattenNonLastTy preserve t ::
        changeLastArgTy preserve (t2 :: ts) sub = _
    rw [changeLastArgTy_spec preserve (t2 :: ts) sub]
    simp [List.dropLast_cons₂]

/-- C5 amended: in safe mode (`flatten()`, the default), every non-last
position of every repeated emission is re-emitted by reference, never by
movable ownership: an owned-value or rvalue-reference position degrades to
an immutable const view, while an lvalue-reference position (mutable or
const) is preserved as-is — so the only non-immutable non-last positions
are those that were already mutable lvalue references in the incoming
bundle, and no position can be moved from across repetitions. -/
theorem flatten_safe_mode_never_movable :
    (∀ (preserve : Bool) (tys : List Ty) (sub : Ty),
        changeLastArgTy preserve tys sub =
          tys.dropLast.map (flattenNonLastTy preserve) ++
            (if tys.isEmpty then [] else [sub])) ∧
    (∀ t : Ty, isMovableTy (flattenNonLastTy false t) = false) ∧
    (∀ t : Ty,
        isImmutableViewTy (flattenNonLastTy false t) = !isMutableRefTy t) ∧
    (∀ t : Ty, flattenNonLastTy false (Ty.rref t) =
        Ty.ref (Ty.cnst (removeCvref t))) ∧
    (∀ (tys subTys : List Ty) (e : List Ty),
        e ∈ flattenEmissionsTy false tys subTys →
          e.dropLast = tys.dropLast.map (flattenNonLastTy false)) := by
  refine ⟨changeLastArgTy_spec, ?_, ?_, fun t => rfl, ?_⟩
  · intro t
    cases t <;> rfl
  · intro t
    cases t with
    | ref u => cases u <;> rfl
    | _ => rfl
  · intro tys subTys e he
    obtain ⟨s, _, rfl⟩ := List.mem_map.mp he
    rw [changeLastArgTy_spec false tys s]
    cases tys with
    | nil => rfl
    | cons t ts =>
      simp [List.dropLast_concat]

/-- Witness for C5's amended theorem at a concrete emission. -/
theorem flatten_safe_mode_never_movable_witness :
    (changeLastArgTy false [Ty.rref (Ty.base 0), Ty.base 1] (Ty.base 2)).dropLast =
      [Ty.rref (Ty.base 0), Ty.base 1].dropLast.map (flattenNonLastTy false) :=
  flatten_safe_mode_never_movable.2.2.2.2
    [Ty.rref (Ty.base 0), Ty.base 1] [Ty.base 2, Ty.base 3]
    (changeLastArgTy false [Ty.rref (Ty.base 0), Ty.base 1] (Ty.base 2))
    (List.mem_map_of_mem _ (List.mem_cons_self _ _))

/-! ## Compositions (`compose.hpp`, `apply.hpp`, claim C9) -/

mutual

/-- A pipeline part as handed to `apply`/`compose`: a single stage
descriptor, or a `detail::composition` holding a tuple of parts. -/
inductive Part (δ : Type) : Type where
  | stage : δ → Part δ
  | comp : PartList δ → Part δ

inductive PartList (δ : Type) : Type where
  | nil : PartList δ
  | cons : Part δ → PartList δ → PartList δ

end

variable {δ ρ : Type}

/-- Convenience conversion for writing `PartList` literals. -/
def partListOf : List (Part δ) → PartList δ
  | [] => .nil
  | p :: ps => .cons p (partListOf ps)

/-- `std::tuple_cat` on part tuples. -/
def appendPL : PartList δ → PartList δ → PartList δ
  | .nil, l2 => l2
  | .cons p l, l2 => .cons p (appendPL l l2)

/-- `detail::as_tuple` / `as_forwarding_tuple` (`compose.hpp`): a
composition contributes its own parts; anything else contributes itself
as a one-element tuple. -/
def asTupleParts : Part δ → PartList δ
  | .comp l => l
  | p => .cons p .nil

/-- `detail::forward_compose`:
`tuple_cat(as_forwarding_tuple(parts)...)` — flatten compositions one
level. -/
def forwardCompose : PartList δ → PartList δ
  | .nil => .nil
  | .cons p l => appendPL (asTupleParts p) (forwardCompose l)

/-- `descend::compose`: group the given parts under one composition,
eagerly flattening composition arguments one level. -/
def composeParts (l : PartList δ) : Part δ :=
  .comp (forwardCompose l)

mutual

/-- The flat list of stage descriptors a part denotes. -/
def partAtoms : Part δ → List δ
  | .stage d => [d]
  | .comp l => partListAtoms l

def partListAtoms : PartList δ → List δ
  | .nil => []
  | .cons p l => partAtoms p ++ partListAtoms l

end

/-- `make_chain`'s static assertion (`chain.hpp`): after decomposition no
part may still be a composition; collect the stage descriptors, or fail
at construction time. -/
def stagesOf : PartList δ → Option (List δ)
  | .nil => some []
  | .cons (.stage d) l => (stagesOf l).map (d :: ·)
  | .cons (.comp _) _ => none

/-- `descend::apply` through `apply_to_decomposed`,
`apply_no_compositions` and `make_chain`: decompose the arguments one
level, then build and drive the chain over the resulting stage
descriptors.  The built chain's terminal value is abstracted as `run` of
the descriptor list, since chain construction sees only that list. -/
def applyParts (run : List δ → ρ) (parts : PartList δ) : Option ρ :=
  (stagesOf (forwardCompose parts)).map run

/-- A part tuple whose elements are all single stages. -/
def stagesOnly : PartList δ → Bool
  | .nil => true
  | .cons (.stage _) l => stagesOnly l
  | .cons (.comp _) _ => false

/-- Parts as the public API can actually build them: a stage, or a
composition produced by `compose`, whose elements are never themselves
compositions because `compose` flattens eagerly. -/
def flatPart : Part δ → Bool
  | .stage _ => true
  | .comp l => stagesOnly l

def allFlat : PartList δ → Bool
  | .nil => true
  | .cons p l => flatPart p && allFlat l

theorem partListAtoms_append :
    ∀ l1 l2 : PartList δ,
      partListAtoms (appendPL l1 l2) = partListAtoms l1 ++ partListAtoms l2
  | .nil, _ => rfl
  | .cons p l, l2 => by
    simp [appendPL, partListAtoms, partListAtoms_append l l2]

theorem partListAtoms_asTupleParts (p : Part δ) :
    partListAtoms (asTupleParts p) = partAtoms p := by
  cases p with
  | stage d => rfl
  | comp l => rfl

theorem partListAtoms_forwardCompose :
    ∀ l : PartList δ, partListAtoms (forwardCompose l) = partListAtoms l
  | .nil => rfl
  | .cons p l => by
    rw [forwardCompose, partListAtoms_append, partListAtoms_asTupleParts,
        partListAtoms_forwardCompose l]
    rfl

theorem stagesOf_of_stagesOnly :
    ∀ l : PartList δ, stagesOnly l = true →
      stagesOf l = some (partListAtoms l)
  | .nil, _ => rfl
  | .cons (.stage d) l, h => by
    rw [stagesOf, stagesOf_of_stagesOnly l h]
    rfl
  | .cons (.comp _) _, h => by simp [stagesOnly] at h

theorem stagesOnly_append :
    ∀ l1 l2 : PartList δ,
      stagesOnly (appendPL l1 l2) = (stagesOnly l1 && stagesOnly l2)
  | .nil, _ => rfl
  | .cons (.stage d) l, l2 => by
    simp [appendPL, stagesOnly, stagesOnly_append l l2]
  | .cons (.comp _) _, _ => rfl

theorem stagesOnly_asTupleParts (p : Part δ) :
    stagesOnly (asTupleParts p) = flatPart p := by
  cases p with
  | stage d => rfl
  | comp l => rfl

theorem stagesOnly_forwardCompose :
    ∀ l : PartList δ, allFlat l = true →
      stagesOnly (forwardCompose l) = true
  | .nil, _ => rfl
  | .cons p l, h => by
    simp only [allFlat, Bool.and_eq_true] at h
    rw [forwardCompose, stagesOnly_append, stagesOnly_asTupleParts,
        h.1, stagesOnly_forwardCompose l h.2]
    rfl

/-- C9: compositions are transparent notational grouping with no runtime
identity.  `compose` preserves the flat list of stage descriptors (also
under nesting); composing API-built parts yields an API-buildable part
again; applying a part list in which adjacent stages are grouped under
compositions produces `run` of exactly the flat descriptor list, so any
two groupings with the same flat descriptor list produce the same
terminal value; concretely, `[stage 1, compose(stage 2, stage 3)]` and
the flat `[stage 1, stage 2, stage 3]` both run on `[1, 2, 3]`. -/
theorem compositions_are_transparent_grouping :
    (∀ (δ : Type) (l : PartList δ),
        partAtoms (composeParts l) = partListAtoms l) ∧
    (∀ (δ : Type) (l : PartList δ), allFlat l = true →
        flatPart (composeParts l) = true) ∧
    (∀ (δ ρ : Type) (run : List δ → ρ) (l : PartList δ), allFlat l = true →
        applyParts run l = some (run (partListAtoms l))) ∧
    (∀ (δ ρ : Type) (run : List δ → ρ) (l1 l2 : PartList δ),
        allFlat l1 = true → allFlat l2 = true →
        partListAtoms l1 = partListAtoms l2 →
        applyParts run l1 = applyParts run l2) ∧
    applyParts (fun l : List Nat => l)
      (partListOf [Part.stage 1,
        composeParts (partListOf [Part.stage 2, Part.stage 3])]) =
      some [1, 2, 3] ∧
    applyParts (fun l : List Nat => l)
      (partListOf [Part.stage 1, Part.stage 2, Part.stage 3]) =
      some [1, 2, 3] := by
  have hc : ∀ (δ ρ : Type) (run : List δ → ρ) (l : PartList δ),
      allFlat l = true → applyParts run l = some (run (partListAtoms l)) := by
    intro δ ρ run l h
    rw [applyParts, stagesOf_of_stagesOnly _ (stagesOnly_forwardCompose l h),
        partListAtoms_forwardCompose]
    rfl
  refine ⟨?_, ?_, hc, ?_, rfl, rfl⟩
  · intro δ l
    exact partListAtoms_forwardCompose l
  · intro δ l h
    exact stagesOnly_forwardCompose l h
  · intro δ ρ run l1 l2 h1 h2 hatoms
    rw [hc δ ρ run l1 h1, hc δ ρ run l2 h2, hatoms]

/-- Witness for C9 at a concrete grouping. -/
theorem compositions_are_transparent_grouping_witness :
    applyParts (fun l : List Nat => l)
      (partListOf [composeParts (partListOf [Part.stage 4]),
        Part.stage 5]) =
      some ((fun l : List Nat => l)
        (partListAtoms (partListOf
          [composeParts (partListOf [Part.stage 4]), Part.stage 5]))) :=
  compositions_are_transparent_grouping.2.2.1 Nat (List Nat)
    (fun l => l)
    (partListOf [composeParts (partListOf [Part.stage 4]), Part.stage 5])
    rfl

end Descend
